import Mathlib

/-!
Verification development for the `etf-scraper` repository.

The embedding models the two cores of the program:

* `DividendHistoryManager` — the historical store of
  `src/dividend_history_manager.py`: the JSON database value, the
  `add_dividend_record` upsert, `get_ticker_history`, `get_statistics`
  and `calculate_trend`.  Python floats are modelled as rationals
  (finite decimal values; `inf`/`nan` are outside the model), Python's
  `datetime` values and dates are carried as the strings the program
  itself stores and compares (the code sorts ex-dates with plain string
  comparison), and `datetime.now()` is passed in as an explicit `now`
  argument.  The JSON dict `db['etfs']` is modelled as an association
  list with unique keys, looked up by first match exactly as a dict.

* `ETFDividendScraper` — the multi-source reconciliation loop of
  `src/scraper_requests.py` (`get_dividend_data`, the row construction
  of `scrape_all`).  The identical loop of `src/scraper.py` lines
  266-298 differs only in the number of sources, which the embedding
  leaves as an arbitrary list of per-source results.  Python truthiness
  of the optional string fields (`None` and `""` are falsy) is modelled
  by `truthy`.
-/

namespace DividendHistoryManager

/-- One stored dividend record, the dict built at
`dividend_history_manager.py` lines 58-65.  `amount` is the parsed
float (as a rational); `amount_str` the display string; the date and
timestamp fields are the strings the program stores. -/
structure DividendRecord where
  amount : ℚ
  amount_str : String
  ex_date : String
  pay_date : String
  scraped_at : String
  recorded_at : String
deriving DecidableEq, Repr

/-- One value of the `db['etfs']` mapping: ETF metadata plus the
dividend series. -/
structure EtfEntry where
  name : String
  frequency : String
  dividends : List DividendRecord
deriving DecidableEq, Repr

/-- The whole persisted database: `{'last_updated': ..., 'etfs': {...}}`.
The dict `etfs` is modelled as an association list (unique keys in any
state a dict can produce), looked up by first match. -/
structure HistoryDB where
  last_updated : String
  etfs : List (String × EtfEntry)
deriving DecidableEq, Repr

/-- The dynamic type of the `amount` argument of `add_dividend_record`:
its callers pass either an already-numeric value or a string. -/
inductive AmountIn where
  | num (q : ℚ)
  | str (s : String)
deriving DecidableEq, Repr

/-- Python `float(...)` on a stripped string, restricted to the finite
decimal literals the scraper produces: optional sign, digits with an
optional decimal point, optional exponent.  (Non-finite literals such
as `inf`/`nan` have no rational value and are outside the model.)
Returns `none` where `float` raises `ValueError`. -/
def pyFloat (s : String) : Option ℚ :=
  let cs := s.toList
  let (sign, cs) :=
    match cs with
    | '-' :: t => ((-1 : ℚ), t)
    | '+' :: t => ((1 : ℚ), t)
    | t => ((1 : ℚ), t)
  let intPart := cs.takeWhile Char.isDigit
  let rest := cs.dropWhile Char.isDigit
  let (fracPart, rest) :=
    match rest with
    | '.' :: t => (t.takeWhile Char.isDigit, t.dropWhile Char.isDigit)
    | t => ([], t)
  let digitsVal : List Char → ℕ := fun ds =>
    ds.foldl (fun (a : ℕ) (c : Char) => a * 10 + (c.toNat - 48)) 0
  let (expOk, expVal, rest) :=
    match rest with
    | 'e' :: t | 'E' :: t =>
      let (esign, t) :=
        match t with
        | '-' :: u => ((-1 : ℤ), u)
        | '+' :: u => ((1 : ℤ), u)
        | u => ((1 : ℤ), u)
      let ed := t.takeWhile Char.isDigit
      let t := t.dropWhile Char.isDigit
      (!ed.isEmpty, esign * (digitsVal ed : ℕ), t)
    | t => (true, (0 : ℤ), t)
  if intPart = [] ∧ fracPart = [] then none
  else if expOk = false then none
  else if rest ≠ [] then none
  else
    let iv : ℕ := digitsVal intPart
    let fv : ℕ := digitsVal fracPart
    let base : ℚ := (iv : ℚ) + (fv : ℚ) / ((10 : ℚ) ^ fracPart.length)
    some (sign * base * (10 : ℚ) ^ expVal)

/-- Python `amount.replace('$', '').strip()` of line 53: remove every
dollar sign and trim surrounding whitespace (structurally, so that it
evaluates by kernel reduction). -/
def stripAmountText (s : String) : String :=
  String.mk ((((s.toList.filter fun c => c ≠ '$').dropWhile
    Char.isWhitespace).reverse.dropWhile Char.isWhitespace).reverse)

/-- The amount coercion of `add_dividend_record` lines 51-55:
`float(amount.replace('$', '').strip())` for a string, `float(amount)`
for a number, and `0.0` when parsing fails. -/
def parseAmount : AmountIn → ℚ
  | .num q => q
  | .str s => (pyFloat (stripAmountText s)).getD 0

/-- Left-pad a digit string with zeros to width `k`. -/
def padZeros (s : String) (k : ℕ) : String :=
  String.mk (List.replicate (k - s.length) '0') ++ s

/-- The display string `f"${amount:.5f}"` of line 60, on the rational
model of the float: five decimals, ties rounded to even. -/
def formatUSD5 (q : ℚ) : String :=
  let r : ℚ := q * 100000
  let f : ℤ := ⌊r⌋
  let frac : ℚ := r - (f : ℚ)
  let n : ℤ :=
    if frac > 1/2 then f + 1
    else if frac < 1/2 then f
    else if f % 2 = 0 then f else f + 1
  let a : ℕ := n.natAbs
  "$" ++ (if n < 0 then "-" else "") ++ toString (a / 100000) ++ "." ++
    padZeros (toString (a % 100000)) 5

/-- The record dict built at lines 58-65. -/
def mkRecord (amount : AmountIn) (ex_date pay_date scraped_at now : String) :
    DividendRecord :=
  { amount := parseAmount amount
    amount_str := match amount with | .str s => s | .num q => formatUSD5 q
    ex_date := ex_date
    pay_date := pay_date
    scraped_at := scraped_at
    recorded_at := now }

/-- The sort key order of line 77: `sort(key=..ex_date, reverse=True)`
keeps `a` before `b` when `b`'s ex-date is at most `a`'s. -/
def divLE (a b : DividendRecord) : Prop := b.ex_date ≤ a.ex_date

/-- Strict version of `divLE`, used to exploit uniqueness of ex-dates. -/
def divLT (a b : DividendRecord) : Prop := b.ex_date < a.ex_date

instance : DecidableRel divLE := fun a b =>
  inferInstanceAs (Decidable (b.ex_date ≤ a.ex_date))

instance : DecidableRel divLT := fun a b =>
  inferInstanceAs (Decidable (b.ex_date < a.ex_date))

instance : IsTotal DividendRecord divLE :=
  ⟨fun a b => le_total b.ex_date a.ex_date⟩

instance : IsTrans DividendRecord divLE :=
  ⟨fun _ _ _ h h' => le_trans h' h⟩

instance : IsTrans DividendRecord divLT :=
  ⟨fun _ _ _ h h' => lt_trans h' h⟩

instance : IsAntisymm DividendRecord divLT :=
  ⟨fun _ _ h h' => absurd h' (lt_asymm h)⟩

/-- Python's stable `list.sort(key=lambda x: x.get('ex_date', ''),
reverse=True)` of line 77, modelled by the stable insertion sort with
respect to `divLE`. -/
def sortDesc (l : List DividendRecord) : List DividendRecord :=
  List.insertionSort divLE l

/-- Lines 67-80 acting on one ticker's series: drop any record with the
incoming ex-date, append the new record, sort most-recent-first,
truncate to 52. -/
def upsertSeries (divs : List DividendRecord) (r : DividendRecord) :
    List DividendRecord :=
  (sortDesc ((divs.filter fun d => d.ex_date ≠ r.ex_date) ++ [r])).take 52

/-- The fresh entry created at lines 44-49 for an unknown ticker. -/
def freshEntry : EtfEntry := { name := "", frequency := "", dividends := [] }

/-- `add_dividend_record` (lines 39-83), from loading the database value
through `save_db` (which stamps `last_updated = now`); returns the new
database paired with the returned series length. -/
def add_dividend_record (db : HistoryDB) (ticker : String) (amount : AmountIn)
    (ex_date pay_date scraped_at now : String) : HistoryDB × ℕ :=
  let etfs0 :=
    if (db.etfs.lookup ticker).isSome then db.etfs
    else db.etfs ++ [(ticker, freshEntry)]
  let entry := (etfs0.lookup ticker).getD freshEntry
  let r := mkRecord amount ex_date pay_date scraped_at now
  let newDivs := upsertSeries entry.dividends r
  let etfs1 := etfs0.map fun p =>
    if p.1 = ticker then (p.1, { p.2 with dividends := newDivs }) else p
  ({ last_updated := now, etfs := etfs1 }, newDivs.length)

/-- The dividend series the database holds for a ticker (`[]` for an
unknown ticker, matching every reader of `db['etfs']`). -/
def getSeries (db : HistoryDB) (t : String) : List DividendRecord :=
  match db.etfs.lookup t with
  | some e => e.dividends
  | none => []

/-- `get_ticker_history` (lines 120-127). -/
def get_ticker_history (db : HistoryDB) (ticker : String) (limit : ℕ) :
    List DividendRecord :=
  (getSeries db ticker).take limit

/-- The statistics dict returned by `get_statistics` (lines 146-154). -/
structure Stats where
  count : ℕ
  latest : ℚ
  average : ℚ
  min : ℚ
  max : ℚ
  total_12m : ℚ
  trend : String
deriving DecidableEq, Repr

/-- Python's `min` over a list of floats, `0` on the empty list (which
`get_statistics` never reaches). -/
def pyMin : List ℚ → ℚ
  | [] => 0
  | [a] => a
  | a :: b :: t => Min.min a (pyMin (b :: t))

/-- Python's `max` over a list of floats, `0` on the empty list. -/
def pyMax : List ℚ → ℚ
  | [] => 0
  | [a] => a
  | a :: b :: t => Max.max a (pyMax (b :: t))

/-- `_calculate_trend` (lines 156-172), on the rational model of the
floats.  `amounts[3:6]` is `(amounts.drop 3).take 3`. -/
def calculate_trend (amounts : List ℚ) : String :=
  if amounts.length < 2 then "stable"
  else
    let recent_avg : ℚ :=
      (amounts.take 3).sum / ((Min.min 3 (amounts.take 3).length : ℕ) : ℚ)
    let older_avg : ℚ :=
      if amounts.length > 3 then
        ((amounts.drop 3).take 3).sum /
          ((Min.min 3 ((amounts.drop 3).take 3).length : ℕ) : ℚ)
      else recent_avg
    let diff_percent : ℚ :=
      if older_avg > 0 then (recent_avg - older_avg) / older_avg * 100 else 0
    if diff_percent > 5 then "increasing"
    else if diff_percent < -5 then "decreasing"
    else "stable"

/-- `get_statistics` (lines 134-154). -/
def get_statistics (db : HistoryDB) (ticker : String) : Option Stats :=
  let history := get_ticker_history db ticker 52
  if history = [] then none
  else
    let amounts := (history.filter fun d => 0 < d.amount).map (·.amount)
    if amounts = [] then none
    else some
      { count := amounts.length
        latest := amounts.headD 0
        average := amounts.sum / (amounts.length : ℚ)
        min := pyMin amounts
        max := pyMax amounts
        total_12m := if amounts.length ≥ 12 then (amounts.take 12).sum
                     else amounts.sum
        trend := calculate_trend (amounts.take 12) }

/-- Observable content of a stored record, in the sense of the spec's
"observable series content": the amount, ex-date and pay date (the
bookkeeping timestamps and the display string are not part of it). -/
def obs (d : DividendRecord) : ℚ × String × String :=
  (d.amount, d.ex_date, d.pay_date)

/-- A record with its display string blanked: equality modulo
`amount_str`. -/
def stripRecDisplay (d : DividendRecord) : DividendRecord :=
  { d with amount_str := "" }

/-- A database with every record's display string blanked. -/
def stripDisplay (db : HistoryDB) : HistoryDB :=
  { db with
    etfs := db.etfs.map fun p =>
      (p.1, { p.2 with dividends := p.2.dividends.map stripRecDisplay }) }

/-- The series shape every store write re-establishes: sorted by
ex-date descending and capped at 52 records. -/
def SeriesOK (l : List DividendRecord) : Prop :=
  l.Sorted divLE ∧ l.length ≤ 52

/-- `SeriesOK` plus uniqueness of the ex-date key within the series —
the full store invariant for one ticker's series. -/
def SeriesValid (l : List DividendRecord) : Prop :=
  l.Sorted divLE ∧ (l.map (·.ex_date)).Nodup ∧ l.length ≤ 52

/-- Claim C2's database invariant: every ticker's series is sorted
descending and holds at most 52 records. -/
def DBInv (db : HistoryDB) : Prop :=
  ∀ p ∈ db.etfs, SeriesOK p.2.dividends

/-- The arguments of one `add_dividend_record` call. -/
structure UpsertCall where
  ticker : String
  amount : AmountIn
  ex_date : String
  pay_date : String
  scraped_at : String
  now : String
deriving Repr

/-- Run one `add_dividend_record` call against a database value. -/
def applyCall (db : HistoryDB) (c : UpsertCall) : HistoryDB :=
  (add_dividend_record db c.ticker c.amount c.ex_date c.pay_date
    c.scraped_at c.now).1

/-- Run a sequence of `add_dividend_record` calls. -/
def applyCalls (db : HistoryDB) (cs : List UpsertCall) : HistoryDB :=
  cs.foldl applyCall db

/-- The arithmetic mean of a list of rationals (`0` for the empty
list, since rational division by zero is zero). -/
def mean (l : List ℚ) : ℚ := l.sum / (l.length : ℚ)

/-- The records of a series whose ex-date is strictly above a key `k`:
in a series sorted descending these form the leading block before the
position where a record with ex-date `k` belongs. -/
def aboveKey (k : String) (l : List DividendRecord) : List DividendRecord :=
  l.takeWhile fun d => decide (k < d.ex_date)

/-- The rest of the series after `aboveKey`, with any record carrying
ex-date `k` itself removed: in a sorted series these are the records
strictly below the key (plus, unsorted, whatever else follows). -/
def belowKey (k : String) (l : List DividendRecord) : List DividendRecord :=
  (l.dropWhile fun d => decide (k < d.ex_date)).filter fun d => d.ex_date ≠ k

/-- The positive-amount list of `get_statistics` line 141:
`[d['amount'] for d in history if d['amount'] > 0]` over the capped
history. -/
def posAmounts (db : HistoryDB) (t : String) : List ℚ :=
  ((get_ticker_history db t 52).filter fun d => 0 < d.amount).map
    fun d => d.amount

/-- Trend classification as the specification words it (claim C6):
recent window of the first 3 amounts, older window of amounts 4-6,
percent change zero when the older mean is zero, thresholds at ±5%. -/
def trendSpec (amounts : List ℚ) : String :=
  if amounts.length < 2 then "stable"
  else
    let recent := mean (amounts.take 3)
    let older := mean ((amounts.drop 3).take 3)
    let pct : ℚ := if older = 0 then 0 else (recent - older) / older * 100
    if pct > 5 then "increasing"
    else if pct < -5 then "decreasing"
    else "stable"

end DividendHistoryManager

namespace ETFDividendScraper

/-- One historical row as an adapter reports it (the dicts appended to
`result['historical']`). -/
structure HistEntry where
  amount : String
  ex_date : String
  pay_date : String
deriving DecidableEq, Repr

/-- The per-source result dict
`{'amount': None, 'ex_date': None, 'pay_date': None, 'historical': []}`
of `scraper_requests.py`; any field may be absent. -/
structure SourceResult where
  amount : Option String
  ex_date : Option String
  pay_date : Option String
  historical : List HistEntry
deriving DecidableEq, Repr

/-- The all-absent result every source starts from (and returns on
failure). -/
def SourceResult.empty : SourceResult := ⟨none, none, none, []⟩

/-- Python truthiness of the optional string fields: `None` and the
empty string are falsy. -/
def truthy : Option String → Bool
  | none => false
  | some s => !(s == "")

/-- One iteration body of the `for source in sources` loop of
`get_dividend_data` (`scraper_requests.py` lines 149-156): fill each
scalar field only when the accumulated one is falsy, and replace the
historical batch whenever this source's batch is non-empty. -/
def mergeStep (result data : SourceResult) : SourceResult :=
  let result :=
    if truthy data.amount && !truthy result.amount then
      { result with amount := data.amount } else result
  let result :=
    if truthy data.ex_date && !truthy result.ex_date then
      { result with ex_date := data.ex_date } else result
  let result :=
    if truthy data.pay_date && !truthy result.pay_date then
      { result with pay_date := data.pay_date } else result
  if !data.historical.isEmpty then { result with historical := data.historical }
  else result

/-- The early-exit condition of line 158:
`result['amount'] and result['ex_date'] and len(result['historical']) > 0`. -/
def complete (r : SourceResult) : Bool :=
  truthy r.amount && truthy r.ex_date && decide (0 < r.historical.length)

/-- The source loop of `get_dividend_data` (lines 145-165): merge each
source's data in order, breaking as soon as `complete` holds. -/
def runSources : SourceResult → List SourceResult → SourceResult
  | result, [] => result
  | result, d :: rest =>
    let merged := mergeStep result d
    if complete merged then merged else runSources merged rest

/-- `get_dividend_data` (lines 136-170), over the ordered list of the
results its sources would return.  `scraper.py` lines 266-298 run the
same loop with a third source. -/
def get_dividend_data (datas : List SourceResult) : SourceResult :=
  runSources SourceResult.empty datas

/-- The sources the loop actually consults (invokes) before breaking,
starting from accumulated result `result`. -/
def consumedSources : SourceResult → List SourceResult → List SourceResult
  | _, [] => []
  | result, d :: rest =>
    let merged := mergeStep result d
    if complete merged then [d] else d :: consumedSources merged rest

/-- Static per-ETF configuration (the `self.etfs` entries). -/
structure EtfConfig where
  ticker : String
  name : String
  frequency : String
  declare_day : String
deriving DecidableEq, Repr

/-- One row appended to `results` by `scrape_all` (lines 187-198). -/
structure OutRow where
  ticker : String
  name : String
  frequency : String
  declare_day : String
  amount : String
  ex_date : String
  pay_date : String
  record_date : String
  scraped_at : String
  status : String
deriving DecidableEq, Repr

/-- Python's `x or 'N/A'` on an optional string field. -/
def orNA : Option String → String
  | none => "N/A"
  | some s => if s = "" then "N/A" else s

/-- The row `scrape_all` builds for one ETF from the reconciled data
(lines 187-198);  `now` stands for the `datetime.now()` stamp. -/
def mkRow (etf : EtfConfig) (d : SourceResult) (now : String) : OutRow :=
  { ticker := etf.ticker
    name := etf.name
    frequency := etf.frequency
    declare_day := etf.declare_day
    amount := orNA d.amount
    ex_date := orNA d.ex_date
    pay_date := orNA d.pay_date
    record_date := "N/A"
    scraped_at := now
    status := if truthy d.amount && truthy d.ex_date then "Success"
              else "Partial/No data" }

/-- Specification-side reading for C3: the first non-empty historical
batch in adapter order. -/
def firstNonemptyHist (ds : List SourceResult) : List HistEntry :=
  (((ds.map (·.historical)).filter fun h => !h.isEmpty)).headD []

/-- The last non-empty historical batch in a list of source results
(empty when none is non-empty): what the merge loop actually keeps. -/
def lastNonemptyHist (ds : List SourceResult) : List HistEntry :=
  ds.foldl (fun h d => if d.historical.isEmpty then h else d.historical) []

/-- The first truthy optional string in a list, `none` when there is
none: the fill-if-absent winner for a scalar field. -/
def firstTruthy : List (Option String) → Option String
  | [] => none
  | o :: t => if truthy o then o else firstTruthy t

theorem mergeStep_amount (r d : SourceResult) :
    (mergeStep r d).amount =
      if truthy d.amount && !truthy r.amount then d.amount else r.amount := by
  simp only [mergeStep]
  split_ifs <;> rfl

theorem mergeStep_ex_date (r d : SourceResult) :
    (mergeStep r d).ex_date =
      if truthy d.ex_date && !truthy r.ex_date then d.ex_date else r.ex_date := by
  simp only [mergeStep]
  split_ifs <;> rfl

theorem mergeStep_pay_date (r d : SourceResult) :
    (mergeStep r d).pay_date =
      if truthy d.pay_date && !truthy r.pay_date then d.pay_date else r.pay_date := by
  simp only [mergeStep]
  split_ifs <;> rfl

theorem mergeStep_historical (r d : SourceResult) :
    (mergeStep r d).historical =
      if d.historical.isEmpty then r.historical else d.historical := by
  simp only [mergeStep]
  split_ifs <;> simp_all

theorem complete_truthy_amount {r : SourceResult} (h : complete r = true) :
    truthy r.amount = true := by
  simp only [complete, Bool.and_eq_true] at h
  exact h.1.1

theorem complete_truthy_ex_date {r : SourceResult} (h : complete r = true) :
    truthy r.ex_date = true := by
  simp only [complete, Bool.and_eq_true] at h
  exact h.1.2

theorem runSources_eq_foldl_consumed (ds : List SourceResult) :
    ∀ r, runSources r ds = List.foldl mergeStep r (consumedSources r ds) := by
  induction ds with
  | nil => intro r; rfl
  | cons d rest ih =>
    intro r
    simp only [runSources, consumedSources]
    by_cases hc : complete (mergeStep r d) = true
    · simp [hc]
    · simp [hc, ih (mergeStep r d)]

theorem runSources_historical (ds : List SourceResult) :
    ∀ r, (runSources r ds).historical =
      (consumedSources r ds).foldl
        (fun h d => if d.historical.isEmpty then h else d.historical)
        r.historical := by
  induction ds with
  | nil => intro r; rfl
  | cons d rest ih =>
    intro r
    simp only [runSources, consumedSources]
    by_cases hc : complete (mergeStep r d) = true
    · simp [hc, mergeStep_historical]
    · simp [hc, ih (mergeStep r d), mergeStep_historical]

theorem runSources_amount_of_truthy (ds : List SourceResult) :
    ∀ r, truthy r.amount = true → (runSources r ds).amount = r.amount := by
  induction ds with
  | nil => intro r _; rfl
  | cons d rest ih =>
    intro r hr
    have hstep : (mergeStep r d).amount = r.amount := by
      rw [mergeStep_amount, hr]
      simp
    simp only [runSources]
    by_cases hc : complete (mergeStep r d) = true
    · simp [hc, hstep]
    · simp only [hc, if_false, Bool.false_eq_true]
      rw [ih (mergeStep r d) (by rw [hstep]; exact hr), hstep]

theorem runSources_ex_date_of_truthy (ds : List SourceResult) :
    ∀ r, truthy r.ex_date = true → (runSources r ds).ex_date = r.ex_date := by
  induction ds with
  | nil => intro r _; rfl
  | cons d rest ih =>
    intro r hr
    have hstep : (mergeStep r d).ex_date = r.ex_date := by
      rw [mergeStep_ex_date, hr]
      simp
    simp only [runSources]
    by_cases hc : complete (mergeStep r d) = true
    · simp [hc, hstep]
    · simp only [hc, if_false, Bool.false_eq_true]
      rw [ih (mergeStep r d) (by rw [hstep]; exact hr), hstep]

theorem runSources_pay_date_of_truthy (ds : List SourceResult) :
    ∀ r, truthy r.pay_date = true → (runSources r ds).pay_date = r.pay_date := by
  induction ds with
  | nil => intro r _; rfl
  | cons d rest ih =>
    intro r hr
    have hstep : (mergeStep r d).pay_date = r.pay_date := by
      rw [mergeStep_pay_date, hr]
      simp
    simp only [runSources]
    by_cases hc : complete (mergeStep r d) = true
    · simp [hc, hstep]
    · simp only [hc, if_false, Bool.false_eq_true]
      rw [ih (mergeStep r d) (by rw [hstep]; exact hr), hstep]

theorem runSources_amount_of_none (ds : List SourceResult) :
    ∀ r, r.amount = none →
      (runSources r ds).amount =
        firstTruthy ((consumedSources r ds).map (·.amount)) := by
  induction ds with
  | nil => intro r hr; simpa [runSources, consumedSources, firstTruthy] using hr
  | cons d rest ih =>
    intro r hr
    have hrt : truthy r.amount = false := by rw [hr]; rfl
    simp only [runSources, consumedSources]
    by_cases ht : truthy d.amount = true
    · have hstep : (mergeStep r d).amount = d.amount := by
        rw [mergeStep_amount, ht, hrt]
        simp
      by_cases hc : complete (mergeStep r d) = true
      · simp [hc, hstep, firstTruthy, ht]
      · simp only [hc, if_false, List.map_cons, Bool.false_eq_true]
        rw [runSources_amount_of_truthy rest _ (by rw [hstep]; exact ht), hstep]
        simp [firstTruthy, ht]
    · have hstep : (mergeStep r d).amount = none := by
        rw [mergeStep_amount]
        simp only [Bool.not_eq_true] at ht
        simp [ht, hr]
      have hc : complete (mergeStep r d) = false := by
        by_contra hcc
        simp only [Bool.not_eq_false] at hcc
        have := complete_truthy_amount hcc
        rw [hstep] at this
        exact absurd this (by decide)
      simp only [hc, if_false, List.map_cons, Bool.false_eq_true]
      rw [ih (mergeStep r d) hstep]
      simp only [Bool.not_eq_true] at ht
      simp [firstTruthy, ht]

theorem runSources_ex_date_of_none (ds : List SourceResult) :
    ∀ r, r.ex_date = none →
      (runSources r ds).ex_date =
        firstTruthy ((consumedSources r ds).map (·.ex_date)) := by
  induction ds with
  | nil => intro r hr; simpa [runSources, consumedSources, firstTruthy] using hr
  | cons d rest ih =>
    intro r hr
    have hrt : truthy r.ex_date = false := by rw [hr]; rfl
    simp only [runSources, consumedSources]
    by_cases ht : truthy d.ex_date = true
    · have hstep : (mergeStep r d).ex_date = d.ex_date := by
        rw [mergeStep_ex_date, ht, hrt]
        simp
      by_cases hc : complete (mergeStep r d) = true
      · simp [hc, hstep, firstTruthy, ht]
      · simp only [hc, if_false, List.map_cons, Bool.false_eq_true]
        rw [runSources_ex_date_of_truthy rest _ (by rw [hstep]; exact ht), hstep]
        simp [firstTruthy, ht]
    · have hstep : (mergeStep r d).ex_date = none := by
        rw [mergeStep_ex_date]
        simp only [Bool.not_eq_true] at ht
        simp [ht, hr]
      have hc : complete (mergeStep r d) = false := by
        by_contra hcc
        simp only [Bool.not_eq_false] at hcc
        have := complete_truthy_ex_date hcc
        rw [hstep] at this
        exact absurd this (by decide)
      simp only [hc, if_false, List.map_cons, Bool.false_eq_true]
      rw [ih (mergeStep r d) hstep]
      simp only [Bool.not_eq_true] at ht
      simp [firstTruthy, ht]

theorem runSources_pay_date_of_none (ds : List SourceResult) :
    ∀ r, r.pay_date = none →
      (runSources r ds).pay_date =
        firstTruthy ((consumedSources r ds).map (·.pay_date)) := by
  induction ds with
  | nil => intro r hr; simpa [runSources, consumedSources, firstTruthy] using hr
  | cons d rest ih =>
    intro r hr
    have hrt : truthy r.pay_date = false := by rw [hr]; rfl
    simp only [runSources, consumedSources]
    by_cases ht : truthy d.pay_date = true
    · have hstep : (mergeStep r d).pay_date = d.pay_date := by
        rw [mergeStep_pay_date, ht, hrt]
        simp
      by_cases hc : complete (mergeStep r d) = true
      · simp [hc, hstep, firstTruthy, ht]
      · simp only [hc, if_false, List.map_cons, Bool.false_eq_true]
        rw [runSources_pay_date_of_truthy rest _ (by rw [hstep]; exact ht), hstep]
        simp [firstTruthy, ht]
    · have hstep : (mergeStep r d).pay_date = none := by
        rw [mergeStep_pay_date]
        simp only [Bool.not_eq_true] at ht
        simp [ht, hr]
      by_cases hc : complete (mergeStep r d) = true
      · simp only [hc, if_true, List.map_cons, List.map_nil]
        rw [hstep]
        simp only [Bool.not_eq_true] at ht
        simp [firstTruthy, ht]
      · simp only [hc, if_false, List.map_cons, Bool.false_eq_true]
        rw [ih (mergeStep r d) hstep]
        simp only [Bool.not_eq_true] at ht
        simp [firstTruthy, ht]

theorem consumedSources_length_le (ds : List SourceResult) :
    ∀ (n : ℕ) (r : SourceResult),
      complete (List.foldl mergeStep r (ds.take (n + 1))) = true →
      (consumedSources r ds).length ≤ n + 1 := by
  induction ds with
  | nil => intro n r _; simp [consumedSources]
  | cons d rest ih =>
    intro n r h
    simp only [List.take_succ_cons, List.foldl_cons] at h
    simp only [consumedSources]
    by_cases hc : complete (mergeStep r d) = true
    · simp [hc]
    · simp only [hc, if_false, List.length_cons, Bool.false_eq_true]
      cases n with
      | zero =>
        simp only [List.take_zero, List.foldl_nil] at h
        exact absurd h hc
      | succ m =>
        have := ih m (mergeStep r d) h
        omega

theorem consumedSources_all (ds : List SourceResult) :
    ∀ r, (∀ j, j ≤ ds.length →
        complete (List.foldl mergeStep r (ds.take j)) = false) →
      consumedSources r ds = ds := by
  induction ds with
  | nil => intro r _; rfl
  | cons d rest ih =>
    intro r h
    have h1 : complete (mergeStep r d) = false := by
      have := h 1 (by simp)
      simpa using this
    simp only [consumedSources, h1, if_false, Bool.false_eq_true]
    have hrest : ∀ j, j ≤ rest.length →
        complete (List.foldl mergeStep (mergeStep r d) (rest.take j)) = false := by
      intro j hj
      have := h (j + 1) (by simp; omega)
      simpa using this
    rw [ih (mergeStep r d) hrest]

theorem runSources_all_absent (ds : List SourceResult) :
    (∀ d ∈ ds, d = SourceResult.empty) →
    runSources SourceResult.empty ds = SourceResult.empty := by
  induction ds with
  | nil => intro _; rfl
  | cons d rest ih =>
    intro h
    have hd : d = SourceResult.empty := h d (by simp)
    have hstep : mergeStep SourceResult.empty SourceResult.empty =
        SourceResult.empty := by decide
    simp only [runSources, hd, hstep]
    have hc : complete SourceResult.empty = false := by decide
    simp only [hc, if_false, Bool.false_eq_true]
    exact ih fun x hx => h x (by simp [hx])

/-- C3: the claim says the merged historical list is the first
non-empty historical batch in adapter order and is never changed once
accepted.  The code replaces the accumulated batch on every consulted
source that has a non-empty one, so a first batch accepted from a
source that left the result incomplete is overwritten by the next
source's batch: on the two sources below the merged batch is the
second source's, not the first non-empty one. -/
theorem C3_counterexample :
    (get_dividend_data
        [⟨none, none, none, [⟨"$0.10", "2024-01-01", "2024-01-08"⟩]⟩,
         ⟨some "$0.50", some "2024-01-02", some "2024-01-15",
           [⟨"$0.20", "2024-01-02", "2024-01-09"⟩]⟩]).historical ≠
      firstNonemptyHist
        [⟨none, none, none, [⟨"$0.10", "2024-01-01", "2024-01-08"⟩]⟩,
         ⟨some "$0.50", some "2024-01-02", some "2024-01-15",
           [⟨"$0.20", "2024-01-02", "2024-01-09"⟩]⟩] := by
  decide

/-- C3 (amended): for every ordered list of adapter results, the
merged historical list equals the last non-empty historical batch among
the adapters actually consulted (empty when none of them supplied
one) — each consulted source's non-empty batch replaces the previously
accepted one, and only the early exit stops further replacement. -/
theorem C3_historical_last_nonempty (ds : List SourceResult) :
    (get_dividend_data ds).historical =
      lastNonemptyHist (consumedSources SourceResult.empty ds) := by
  unfold get_dividend_data lastNonemptyHist
  rw [runSources_historical ds SourceResult.empty]
  rfl

/-- C4: each of the merged amount, ex-date and pay-date fields equals
the first truthy (non-absent) value for that field among the consumed
adapters, so a later adapter never overwrites an earlier one's value;
in particular with adapter A returning only an amount and adapter B
returning amount, ex-date, pay date and historical data, the merged
amount is A's and the merged ex-date is B's. -/
theorem C4_fill_if_absent (ds : List SourceResult) :
    ((get_dividend_data ds).amount =
        firstTruthy ((consumedSources SourceResult.empty ds).map (·.amount))
      ∧ (get_dividend_data ds).ex_date =
        firstTruthy ((consumedSources SourceResult.empty ds).map (·.ex_date))
      ∧ (get_dividend_data ds).pay_date =
        firstTruthy ((consumedSources SourceResult.empty ds).map (·.pay_date)))
    ∧ ((get_dividend_data
          [⟨some "$0.40", none, none, []⟩,
           ⟨some "$0.55", some "2024-02-01", some "2024-02-08",
             [⟨"$0.55", "2024-02-01", "2024-02-08"⟩]⟩]).amount = some "$0.40"
      ∧ (get_dividend_data
          [⟨some "$0.40", none, none, []⟩,
           ⟨some "$0.55", some "2024-02-01", some "2024-02-08",
             [⟨"$0.55", "2024-02-01", "2024-02-08"⟩]⟩]).ex_date =
          some "2024-02-01") := by
  refine ⟨⟨?_, ?_, ?_⟩, by decide, by decide⟩
  · exact runSources_amount_of_none ds SourceResult.empty rfl
  · exact runSources_ex_date_of_none ds SourceResult.empty rfl
  · exact runSources_pay_date_of_none ds SourceResult.empty rfl

/-- C5: if the merged result is complete (truthy amount, truthy
ex-date, non-empty historical batch) after consuming the first `k + 1`
sources, then at most the first `k + 1` sources are ever consulted —
no later adapter is invoked; and if completeness never holds after any
prefix, every adapter in the list is consulted. -/
theorem C5_early_exit (ds : List SourceResult) (k : ℕ) :
    (complete (List.foldl mergeStep SourceResult.empty (ds.take (k + 1))) = true →
      (consumedSources SourceResult.empty ds).length ≤ k + 1)
    ∧ ((∀ j, j ≤ ds.length →
          complete (List.foldl mergeStep SourceResult.empty (ds.take j)) = false) →
        consumedSources SourceResult.empty ds = ds) := by
  constructor
  · exact consumedSources_length_le ds k SourceResult.empty
  · exact consumedSources_all ds SourceResult.empty

/-- C5 witness: a complete first source stops the loop after one
source on a two-source list; a list of two empty sources is consulted
in full. -/
theorem C5_early_exit_witness :
    ((consumedSources SourceResult.empty
        [⟨some "$1", some "2024-01-02", none, [⟨"$1", "2024-01-02", "N/A"⟩]⟩,
         ⟨some "$2", some "2024-01-03", none, []⟩]).length ≤ 1)
    ∧ (consumedSources SourceResult.empty
        [SourceResult.empty, SourceResult.empty] =
        [SourceResult.empty, SourceResult.empty]) :=
  ⟨(C5_early_exit
      [⟨some "$1", some "2024-01-02", none, [⟨"$1", "2024-01-02", "N/A"⟩]⟩,
       ⟨some "$2", some "2024-01-03", none, []⟩] 0).1 (by decide),
   (C5_early_exit [SourceResult.empty, SourceResult.empty] 0).2 (by decide)⟩

/-- C9: when every adapter returns fully absent data the reconciler
returns (it is a total function) with the all-absent result; the row
built from it carries the "N/A" sentinel in the amount, ex-date and
pay-date columns, an empty historical batch, and status
"Partial/No data" rather than "Success". -/
theorem C9_all_absent (ds : List SourceResult) (etf : EtfConfig) (now : String)
    (h : ∀ d ∈ ds, d = SourceResult.empty) :
    get_dividend_data ds = SourceResult.empty
    ∧ (get_dividend_data ds).historical = []
    ∧ (mkRow etf (get_dividend_data ds) now).amount = "N/A"
    ∧ (mkRow etf (get_dividend_data ds) now).ex_date = "N/A"
    ∧ (mkRow etf (get_dividend_data ds) now).pay_date = "N/A"
    ∧ (mkRow etf (get_dividend_data ds) now).status = "Partial/No data" := by
  have hmain : get_dividend_data ds = SourceResult.empty :=
    runSources_all_absent ds h
  rw [hmain]
  exact ⟨rfl, rfl, rfl, rfl, rfl, rfl⟩

/-- C9 witness: the claim's conclusion on a concrete two-source run
where both sources return fully absent data. -/
theorem C9_all_absent_witness :
    get_dividend_data [SourceResult.empty, SourceResult.empty] =
        SourceResult.empty
    ∧ (get_dividend_data [SourceResult.empty, SourceResult.empty]).historical = []
    ∧ (mkRow ⟨"YBTC", "Roundhill Bitcoin Covered Call Strategy ETF", "Weekly",
        "Tuesday"⟩ (get_dividend_data [SourceResult.empty, SourceResult.empty])
        "2025-01-01 00:00:00").amount = "N/A"
    ∧ (mkRow ⟨"YBTC", "Roundhill Bitcoin Covered Call Strategy ETF", "Weekly",
        "Tuesday"⟩ (get_dividend_data [SourceResult.empty, SourceResult.empty])
        "2025-01-01 00:00:00").ex_date = "N/A"
    ∧ (mkRow ⟨"YBTC", "Roundhill Bitcoin Covered Call Strategy ETF", "Weekly",
        "Tuesday"⟩ (get_dividend_data [SourceResult.empty, SourceResult.empty])
        "2025-01-01 00:00:00").pay_date = "N/A"
    ∧ (mkRow ⟨"YBTC", "Roundhill Bitcoin Covered Call Strategy ETF", "Weekly",
        "Tuesday"⟩ (get_dividend_data [SourceResult.empty, SourceResult.empty])
        "2025-01-01 00:00:00").status = "Partial/No data" :=
  C9_all_absent [SourceResult.empty, SourceResult.empty]
    ⟨"YBTC", "Roundhill Bitcoin Covered Call Strategy ETF", "Weekly", "Tuesday"⟩
    "2025-01-01 00:00:00" (by decide)

end ETFDividendScraper

namespace DividendHistoryManager

theorem pyMin_cons_cons (a b : ℚ) (t : List ℚ) :
    pyMin (a :: b :: t) = Min.min a (pyMin (b :: t)) := rfl

theorem pyMax_cons_cons (a b : ℚ) (t : List ℚ) :
    pyMax (a :: b :: t) = Max.max a (pyMax (b :: t)) := rfl

theorem pyMin_mem (l : List ℚ) (h : l ≠ []) : pyMin l ∈ l := by
  induction l with
  | nil => exact absurd rfl h
  | cons a t ih =>
    cases t with
    | nil => simp [pyMin]
    | cons b u =>
      rw [pyMin_cons_cons]
      rcases le_total a (pyMin (b :: u)) with hle | hle
      · simp [min_eq_left hle]
      · rw [min_eq_right hle]
        exact List.mem_cons_of_mem a (ih (by simp))

theorem pyMin_le (l : List ℚ) : ∀ x ∈ l, pyMin l ≤ x := by
  induction l with
  | nil => intro x hx; exact absurd hx (by simp)
  | cons a t ih =>
    intro x hx
    cases t with
    | nil =>
      rcases List.mem_cons.1 hx with rfl | hx'
      · exact le_refl x
      · exact absurd hx' (by simp)
    | cons b u =>
      rw [pyMin_cons_cons]
      rcases List.mem_cons.1 hx with rfl | hx'
      · exact min_le_left _ _
      · exact le_trans (min_le_right _ _) (ih x hx')

theorem pyMax_mem (l : List ℚ) (h : l ≠ []) : pyMax l ∈ l := by
  induction l with
  | nil => exact absurd rfl h
  | cons a t ih =>
    cases t with
    | nil => simp [pyMax]
    | cons b u =>
      rw [pyMax_cons_cons]
      rcases le_total (pyMax (b :: u)) a with hle | hle
      · simp [max_eq_left hle]
      · rw [max_eq_right hle]
        exact List.mem_cons_of_mem a (ih (by simp))

theorem le_pyMax (l : List ℚ) : ∀ x ∈ l, x ≤ pyMax l := by
  induction l with
  | nil => intro x hx; exact absurd hx (by simp)
  | cons a t ih =>
    intro x hx
    cases t with
    | nil =>
      rcases List.mem_cons.1 hx with rfl | hx'
      · exact le_refl x
      · exact absurd hx' (by simp)
    | cons b u =>
      rw [pyMax_cons_cons]
      rcases List.mem_cons.1 hx with rfl | hx'
      · exact le_max_left _ _
      · exact le_trans (ih x hx') (le_max_right _ _)

end DividendHistoryManager

namespace DividendHistoryManager

/-- C6: over any series of positive amounts in most-recent-first order
the code's trend classification agrees with the specification's:
stable below 2 data points, recent window mean over the first 3
amounts against the older window mean over amounts 4-6, percent change
zero when the older mean is zero, `increasing` above +5%, `decreasing`
below -5%, else `stable`; in particular
[0.10, 0.10, 0.10, 0.08, 0.08, 0.08] classifies as increasing. -/
theorem C6_trend_classification (amounts : List ℚ)
    (hpos : ∀ x ∈ amounts, 0 < x) :
    calculate_trend amounts = trendSpec amounts
    ∧ calculate_trend [0.10, 0.10, 0.10, 0.08, 0.08, 0.08] = "increasing" := by
  refine ⟨?_, by norm_num [calculate_trend]⟩
  by_cases hlen : amounts.length < 2
  · simp [calculate_trend, trendSpec, hlen]
  · have hR2 : 2 ≤ amounts.length := not_lt.1 hlen
    have hRmin : Min.min 3 (amounts.take 3).length = (amounts.take 3).length :=
      Nat.min_eq_right (amounts.length_take_le 3)
    have hRne : amounts.take 3 ≠ [] := by
      have : 0 < (amounts.take 3).length := by
        rw [List.length_take]
        omega
      exact List.ne_nil_of_length_pos this
    have hRpos : 0 < (amounts.take 3).sum :=
      List.sum_pos _ (fun x hx => hpos x (List.mem_of_mem_take hx)) hRne
    have hRavg : 0 < (amounts.take 3).sum / ((amounts.take 3).length : ℚ) := by
      apply div_pos hRpos
      exact_mod_cast List.length_pos.2 hRne
    by_cases hgt : amounts.length > 3
    · have hOmin : Min.min 3 ((amounts.drop 3).take 3).length =
          ((amounts.drop 3).take 3).length :=
        Nat.min_eq_right ((amounts.drop 3).length_take_le 3)
      have hOne : (amounts.drop 3).take 3 ≠ [] := by
        have : 0 < ((amounts.drop 3).take 3).length := by
          rw [List.length_take, List.length_drop]
          omega
        exact List.ne_nil_of_length_pos this
      have hOpos : 0 < ((amounts.drop 3).take 3).sum :=
        List.sum_pos _
          (fun x hx => hpos x (List.mem_of_mem_drop (List.mem_of_mem_take hx)))
          hOne
      have hOavg : 0 < ((amounts.drop 3).take 3).sum /
          (((amounts.drop 3).take 3).length : ℚ) := by
        apply div_pos hOpos
        exact_mod_cast List.length_pos.2 hOne
      simp only [calculate_trend, trendSpec, mean, hlen, if_false, hgt, if_true,
        hRmin, hOmin]
      rw [if_pos hOavg, if_neg (ne_of_gt hOavg)]
    · have hdrop : amounts.drop 3 = [] :=
        List.drop_eq_nil_of_le (by omega)
      simp only [calculate_trend, trendSpec, mean, hlen, if_false, hgt, if_true,
        hRmin, hdrop, List.take_nil, List.sum_nil, List.length_nil]
      rw [if_pos hRavg]
      norm_num

/-- C6 witness: the claim's conclusion at the concrete positive series
of the specification's example. -/
theorem C6_trend_witness :
    calculate_trend [0.10, 0.10, 0.10, 0.08, 0.08, 0.08] =
      trendSpec [0.10, 0.10, 0.10, 0.08, 0.08, 0.08]
    ∧ calculate_trend [0.10, 0.10, 0.10, 0.08, 0.08, 0.08] = "increasing" :=
  C6_trend_classification [0.10, 0.10, 0.10, 0.08, 0.08, 0.08] (by norm_num)

/-- C7: `get_statistics` is absent exactly when the capped series has
no strictly positive amount (in particular on an all-zero series), and
when present its fields are the count, first element, arithmetic mean,
minimum and maximum of the positive amounts of the capped series plus
the sum of the most recent 12 of them (all of them when fewer). -/
theorem C7_statistics (db : HistoryDB) (t : String) :
    (get_statistics db t = none ↔ posAmounts db t = [])
    ∧ ((∀ d ∈ get_ticker_history db t 52, d.amount = 0) →
        get_statistics db t = none)
    ∧ (∀ s, get_statistics db t = some s →
        s.count = (posAmounts db t).length
        ∧ s.latest = (posAmounts db t).headD 0
        ∧ s.average * (s.count : ℚ) = (posAmounts db t).sum
        ∧ s.min ∈ posAmounts db t
        ∧ (∀ x ∈ posAmounts db t, s.min ≤ x)
        ∧ s.max ∈ posAmounts db t
        ∧ (∀ x ∈ posAmounts db t, x ≤ s.max)
        ∧ s.total_12m = ((posAmounts db t).take 12).sum) := by
  have hiff : get_statistics db t = none ↔ posAmounts db t = [] := by
    unfold get_statistics posAmounts
    by_cases h1 : get_ticker_history db t 52 = []
    · simp [h1]
    · by_cases h2 : ((get_ticker_history db t 52).filter fun d => 0 < d.amount).map
          (fun d => d.amount) = []
      · simp [h1, h2]
      · simp [h1, h2]
  refine ⟨hiff, ?_, ?_⟩
  · intro hz
    apply hiff.2
    unfold posAmounts
    rw [List.filter_eq_nil_iff.2 (fun d hd => by simp [hz d hd]), List.map_nil]
  · intro s hs
    by_cases h1 : get_ticker_history db t 52 = []
    · rw [show get_statistics db t = none by unfold get_statistics; simp [h1]] at hs
      exact absurd hs (by simp)
    · by_cases h2 : posAmounts db t = []
      · rw [hiff.2 h2] at hs
        exact absurd hs (by simp)
      · have hs' : get_statistics db t = some
            { count := (posAmounts db t).length
              latest := (posAmounts db t).headD 0
              average := (posAmounts db t).sum / ((posAmounts db t).length : ℚ)
              min := pyMin (posAmounts db t)
              max := pyMax (posAmounts db t)
              total_12m := if (posAmounts db t).length ≥ 12 then
                  ((posAmounts db t).take 12).sum else (posAmounts db t).sum
              trend := calculate_trend ((posAmounts db t).take 12) } := by
          unfold get_statistics posAmounts at *
          simp only [h1, if_false]
          rw [if_neg h2]
        rw [hs'] at hs
        obtain rfl : _ = s := Option.some_injective _ hs
        have hlenpos : 0 < (posAmounts db t).length := List.length_pos.2 h2
        have hcast : ((posAmounts db t).length : ℚ) ≠ 0 := by
          exact_mod_cast Nat.pos_iff_ne_zero.1 hlenpos
        refine ⟨rfl, rfl, ?_, pyMin_mem _ h2, pyMin_le _, pyMax_mem _ h2,
          le_pyMax _, ?_⟩
        · exact div_mul_cancel₀ _ hcast
        · by_cases h12 : (posAmounts db t).length ≥ 12
          · simp [h12]
          · simp only [h12, if_false]
            rw [List.take_of_length_le (by omega)]

/-- A concrete database with one positive-amount and one zero-amount
record, used to instantiate claim C7. -/
def C7db : HistoryDB :=
  ⟨"2024-03-01T00:00:00",
   [("QQQI", ⟨"Neos Nasdaq 100 High Income ETF", "Monthly",
     [⟨1/2, "$0.50000", "2024-03-01", "2024-03-08", "s1", "t1"⟩,
      ⟨0, "$0.00000", "2024-02-01", "2024-02-08", "s0", "t0"⟩]⟩)]⟩

/-- A concrete database whose only series is all-zero, used to
instantiate claim C7's absent case. -/
def C7dbZero : HistoryDB :=
  ⟨"2024-03-01T00:00:00",
   [("IWMI", ⟨"Neos Russell 2000 High Income ETF", "Monthly",
     [⟨0, "$0.00000", "2024-02-01", "2024-02-08", "s0", "t0"⟩]⟩)]⟩

/-- C7 witness: an all-zero series yields absent statistics, and on a
concrete mixed series the returned statistics satisfy every clause. -/
theorem C7_statistics_witness :
    get_statistics C7dbZero "IWMI" = none
    ∧ ((⟨1, 1/2, 1/2, 1/2, 1/2, 1/2, "stable"⟩ : Stats).count =
        (posAmounts C7db "QQQI").length
      ∧ (⟨1, 1/2, 1/2, 1/2, 1/2, 1/2, "stable"⟩ : Stats).latest =
        (posAmounts C7db "QQQI").headD 0
      ∧ (⟨1, 1/2, 1/2, 1/2, 1/2, 1/2, "stable"⟩ : Stats).average *
          (((⟨1, 1/2, 1/2, 1/2, 1/2, 1/2, "stable"⟩ : Stats).count : ℕ) : ℚ) =
        (posAmounts C7db "QQQI").sum
      ∧ (⟨1, 1/2, 1/2, 1/2, 1/2, 1/2, "stable"⟩ : Stats).min ∈ posAmounts C7db "QQQI"
      ∧ (∀ x ∈ posAmounts C7db "QQQI",
          (⟨1, 1/2, 1/2, 1/2, 1/2, 1/2, "stable"⟩ : Stats).min ≤ x)
      ∧ (⟨1, 1/2, 1/2, 1/2, 1/2, 1/2, "stable"⟩ : Stats).max ∈ posAmounts C7db "QQQI"
      ∧ (∀ x ∈ posAmounts C7db "QQQI",
          x ≤ (⟨1, 1/2, 1/2, 1/2, 1/2, 1/2, "stable"⟩ : Stats).max)
      ∧ (⟨1, 1/2, 1/2, 1/2, 1/2, 1/2, "stable"⟩ : Stats).total_12m =
        ((posAmounts C7db "QQQI").take 12).sum) :=
  ⟨(C7_statistics C7dbZero "IWMI").2.1 (by
      intro d hd
      simp only [get_ticker_history, getSeries, C7dbZero, List.lookup] at hd
      norm_num at hd
      simp [hd]),
   (C7_statistics C7db "QQQI").2.2 ⟨1, 1/2, 1/2, 1/2, 1/2, 1/2, "stable"⟩ (by
      norm_num [get_statistics, get_ticker_history, getSeries, C7db,
        List.lookup, pyMin, pyMax, calculate_trend, Stats.mk.injEq]
      exact fun h => absurd h (List.cons_ne_nil _ _))⟩

end DividendHistoryManager

namespace DividendHistoryManager

theorem sortDesc_sorted (l : List DividendRecord) : (sortDesc l).Sorted divLE :=
  List.sorted_insertionSort divLE l

theorem sortDesc_perm (l : List DividendRecord) : (sortDesc l).Perm l :=
  List.perm_insertionSort divLE l

theorem sorted_strict_of_nodup_keys {l : List DividendRecord}
    (hs : l.Sorted divLE) (hn : (l.map fun d => d.ex_date).Nodup) :
    l.Sorted divLT := by
  have hne : l.Pairwise fun a b => a.ex_date ≠ b.ex_date := List.pairwise_map.1 hn
  exact (hs.and hne).imp fun h => lt_of_le_of_ne h.1 (Ne.symm h.2)

theorem keys_nodup_of_perm {l₁ l₂ : List DividendRecord} (hp : l₁.Perm l₂)
    (hn : (l₁.map fun d => d.ex_date).Nodup) :
    (l₂.map fun d => d.ex_date).Nodup :=
  ((hp.map _).nodup_iff).1 hn

theorem eq_of_perm_sorted_keys {l₁ l₂ : List DividendRecord} (hp : l₁.Perm l₂)
    (hs₁ : l₁.Sorted divLE) (hs₂ : l₂.Sorted divLE)
    (hn : (l₁.map fun d => d.ex_date).Nodup) : l₁ = l₂ :=
  List.eq_of_perm_of_sorted hp (sorted_strict_of_nodup_keys hs₁ hn)
    (sorted_strict_of_nodup_keys hs₂ (keys_nodup_of_perm hp hn))

theorem sortDesc_eq_orderedInsert (T : List DividendRecord) (r : DividendRecord)
    (hs : T.Sorted divLE) (hn : ((T ++ [r]).map fun d => d.ex_date).Nodup) :
    sortDesc (T ++ [r]) = List.orderedInsert divLE r T := by
  apply eq_of_perm_sorted_keys
  · exact (sortDesc_perm _).trans
      ((List.perm_append_singleton r T).trans
        (List.perm_orderedInsert divLE r T).symm)
  · exact sortDesc_sorted _
  · exact List.Sorted.orderedInsert r T hs
  · exact keys_nodup_of_perm (sortDesc_perm _).symm hn

theorem orderedInsert_append_left {A C : List DividendRecord}
    {r : DividendRecord} (h : ∀ a ∈ A, ¬ divLE r a) :
    List.orderedInsert divLE r (A ++ C) = A ++ List.orderedInsert divLE r C := by
  induction A with
  | nil => rfl
  | cons a A ih =>
    have hna : ¬ divLE r a := h a (by simp)
    simp only [List.cons_append, List.orderedInsert, if_neg hna]
    congr 1
    exact ih fun x hx => h x (by simp [hx])

theorem orderedInsert_below {C : List DividendRecord} {r : DividendRecord}
    (h : ∀ c ∈ C, divLE r c) :
    List.orderedInsert divLE r C = r :: C := by
  cases C with
  | nil => rfl
  | cons c C => exact List.orderedInsert_of_le divLE C (h c (by simp))

theorem aboveKey_mem {k : String} {l : List DividendRecord} :
    ∀ a ∈ aboveKey k l, k < a.ex_date := by
  intro a ha
  have := List.mem_takeWhile_imp ha
  simpa using this

theorem dropWhile_key_le {k : String} {l : List DividendRecord}
    (hs : l.Sorted divLE) :
    ∀ d ∈ l.dropWhile (fun d => decide (k < d.ex_date)), d.ex_date ≤ k := by
  induction l with
  | nil => intro d hd; exact absurd hd (by simp)
  | cons a t ih =>
    intro d hd
    by_cases hp : k < a.ex_date
    · rw [List.dropWhile_cons_of_pos (by simpa using hp)] at hd
      exact ih hs.of_cons d hd
    · rw [List.dropWhile_cons_of_neg (by simpa using hp)] at hd
      rcases List.mem_cons.1 hd with rfl | hd'
      · exact not_lt.1 hp
      · exact le_trans (List.rel_of_sorted_cons hs d hd') (not_lt.1 hp)

theorem belowKey_mem {k : String} {l : List DividendRecord}
    (hs : l.Sorted divLE) :
    ∀ d ∈ belowKey k l, d.ex_date ≤ k ∧ d.ex_date ≠ k := by
  intro d hd
  have hsub : d ∈ l.dropWhile (fun d => decide (k < d.ex_date)) :=
    List.mem_of_mem_filter hd
  refine ⟨dropWhile_key_le hs d hsub, ?_⟩
  have := List.of_mem_filter hd
  simpa using this

theorem filter_ne_key_eq (k : String) (l : List DividendRecord) :
    (l.filter fun d => d.ex_date ≠ k) = aboveKey k l ++ belowKey k l := by
  unfold aboveKey belowKey
  conv_lhs => rw [← List.takeWhile_append_dropWhile
    (fun d => decide (k < d.ex_date)) l]
  rw [List.filter_append]
  congr 1
  rw [List.filter_eq_self]
  intro a ha
  have : k < a.ex_date := by simpa using List.mem_takeWhile_imp ha
  simpa using ne_of_gt this

end DividendHistoryManager

namespace DividendHistoryManager

theorem upsert_pre_keys_nodup (divs : List DividendRecord) (r : DividendRecord)
    (hn : (divs.map fun d => d.ex_date).Nodup) :
    (((divs.filter fun d => d.ex_date ≠ r.ex_date) ++ [r]).map
      fun d => d.ex_date).Nodup := by
  rw [List.map_append]
  rw [List.nodup_append]
  refine ⟨?_, by simp, ?_⟩
  · exact hn.sublist ((List.filter_sublist divs).map _)
  · intro x hx
    simp only [List.mem_map] at hx
    obtain ⟨d, hd, rfl⟩ := hx
    have := List.of_mem_filter hd
    simpa using this

theorem keys_above_below_nodup (divs : List DividendRecord)
    (r : DividendRecord) (hn : (divs.map fun d => d.ex_date).Nodup) :
    (((aboveKey r.ex_date divs ++ belowKey r.ex_date divs) ++ [r]).map
      fun d => d.ex_date).Nodup := by
  rw [← filter_ne_key_eq]
  exact upsert_pre_keys_nodup divs r hn

theorem upsert_decomp (divs : List DividendRecord) (r : DividendRecord)
    (hs : divs.Sorted divLE) (hn : (divs.map fun d => d.ex_date).Nodup) :
    upsertSeries divs r =
      (aboveKey r.ex_date divs ++ r :: belowKey r.ex_date divs).take 52 := by
  unfold upsertSeries
  rw [filter_ne_key_eq r.ex_date divs]
  rw [sortDesc_eq_orderedInsert _ r
    ((filter_ne_key_eq r.ex_date divs) ▸ hs.filter _)
    (keys_above_below_nodup divs r hn)]
  rw [orderedInsert_append_left
    (fun a ha => by
      have : r.ex_date < a.ex_date := aboveKey_mem a ha
      exact not_le.2 this)]
  rw [orderedInsert_below
    (fun c hc => (belowKey_mem hs c hc).1)]

theorem upsert_sorted (divs : List DividendRecord) (r : DividendRecord) :
    (upsertSeries divs r).Sorted divLE :=
  (sortDesc_sorted _).sublist (List.take_sublist _ _)

theorem upsert_length_le (divs : List DividendRecord) (r : DividendRecord) :
    (upsertSeries divs r).length ≤ 52 := by
  unfold upsertSeries
  rw [List.length_take]
  exact min_le_left _ _

theorem upsert_keys_nodup (divs : List DividendRecord) (r : DividendRecord)
    (hn : (divs.map fun d => d.ex_date).Nodup) :
    ((upsertSeries divs r).map fun d => d.ex_date).Nodup := by
  have hpre := upsert_pre_keys_nodup divs r hn
  have hsort : ((sortDesc ((divs.filter fun d => d.ex_date ≠ r.ex_date) ++ [r])).map
      fun d => d.ex_date).Nodup :=
    keys_nodup_of_perm (sortDesc_perm _).symm hpre
  unfold upsertSeries
  rw [List.map_take]
  exact hsort.sublist (List.take_sublist _ _)

theorem upsert_valid (divs : List DividendRecord) (r : DividendRecord)
    (hv : SeriesValid divs) : SeriesValid (upsertSeries divs r) :=
  ⟨upsert_sorted divs r, upsert_keys_nodup divs r hv.2.1, upsert_length_le divs r⟩

end DividendHistoryManager

namespace DividendHistoryManager

theorem filter_above_eq {A : List DividendRecord} {k : String}
    (hAmem : ∀ a ∈ A, k < a.ex_date) :
    (A.filter fun d => d.ex_date ≠ k) = A := by
  rw [List.filter_eq_self]
  intro a ha
  simpa using ne_of_gt (hAmem a ha)

theorem keys_append_key_nodup {T : List DividendRecord} {r : DividendRecord}
    (hTn : (T.map fun d => d.ex_date).Nodup)
    (hne : ∀ d ∈ T, d.ex_date ≠ r.ex_date) :
    ((T ++ [r]).map fun d => d.ex_date).Nodup := by
  rw [List.map_append, List.nodup_append]
  refine ⟨hTn, by simp, ?_⟩
  intro x hx
  simp only [List.mem_map] at hx
  obtain ⟨d, hd, rfl⟩ := hx
  simpa using hne d hd

theorem orderedInsert_all_above {A : List DividendRecord} {r : DividendRecord}
    (h : ∀ a ∈ A, ¬ divLE r a) :
    List.orderedInsert divLE r A = A ++ [r] := by
  induction A with
  | nil => rfl
  | cons a A ih =>
    have hna : ¬ divLE r a := h a (by simp)
    simp only [List.orderedInsert, if_neg hna, List.cons_append]
    congr 1
    exact ih fun x hx => h x (by simp [hx])

theorem take_upsert_core (A D : List DividendRecord) (r₂ : DividendRecord)
    (hAmem : ∀ a ∈ A, r₂.ex_date < a.ex_date)
    (hDmem : ∀ d ∈ D, d.ex_date ≤ r₂.ex_date ∧ d.ex_date ≠ r₂.ex_date)
    (hADs : (A ++ D).Sorted divLE)
    (hADn : ((A ++ D).map fun d => d.ex_date).Nodup)
    (hlen : A.length + D.length ≤ 52) :
    ∀ r₁, r₁.ex_date = r₂.ex_date →
      upsertSeries ((A ++ r₁ :: D).take 52) r₂ = (A ++ r₂ :: D).take 52 := by
  intro r₁ hk1
  have hAle : A.length ≤ 52 := by omega
  have hAsor : A.Sorted divLE := hADs.sublist (List.sublist_append_left A D)
  by_cases hA52 : 52 ≤ A.length
  · -- the leading block already fills the retention window
    have hDnil : D = [] := by
      have : D.length = 0 := by omega
      exact List.length_eq_zero.1 this
    subst hDnil
    have hS : (A ++ r₁ :: ([] : List DividendRecord)).take 52 = A := by
      rw [List.take_append_eq_append_take, List.take_of_length_le hAle]
      have h0 : 52 - A.length = 0 := by omega
      rw [h0, List.take_zero, List.append_nil]
    rw [hS]
    unfold upsertSeries
    rw [filter_above_eq hAmem]
    rw [sortDesc_eq_orderedInsert A r₂ (by simpa using hAsor)
      (keys_append_key_nodup (by simpa using hADn)
        (fun d hd => ne_of_gt (hAmem d hd)))]
    rw [orderedInsert_all_above (fun a ha => not_le.2 (hAmem a ha))]
  · have hA51 : A.length ≤ 51 := by omega
    have hsub : 52 - A.length = (51 - A.length) + 1 := by omega
    have htake : ∀ r : DividendRecord, (A ++ r :: D).take 52 =
        A ++ r :: D.take (51 - A.length) := by
      intro r
      rw [List.take_append_eq_append_take, List.take_of_length_le hAle, hsub,
        List.take_succ_cons]
    rw [htake r₁, htake r₂]
    have hD1mem : ∀ d ∈ D.take (51 - A.length),
        d.ex_date ≤ r₂.ex_date ∧ d.ex_date ≠ r₂.ex_date :=
      fun d hd => hDmem d (List.mem_of_mem_take hd)
    have hD1len : (D.take (51 - A.length)).length ≤ 51 - A.length := by
      rw [List.length_take]
      exact min_le_left _ _
    have hAD1sub : (A ++ D.take (51 - A.length)).Sublist (A ++ D) :=
      (List.take_sublist _ D).append_left A
    have hAD1s : (A ++ D.take (51 - A.length)).Sorted divLE :=
      hADs.sublist hAD1sub
    have hAD1n : ((A ++ D.take (51 - A.length)).map fun d => d.ex_date).Nodup :=
      hADn.sublist (hAD1sub.map _)
    unfold upsertSeries
    have hF : ((A ++ r₁ :: D.take (51 - A.length)).filter
        fun d => d.ex_date ≠ r₂.ex_date) = A ++ D.take (51 - A.length) := by
      rw [List.filter_append]
      rw [filter_above_eq hAmem]
      congr 1
      rw [List.filter_cons_of_neg (by simpa using hk1)]
      rw [List.filter_eq_self]
      intro d hd
      simpa using (hD1mem d hd).2
    rw [hF]
    rw [sortDesc_eq_orderedInsert _ r₂ hAD1s
      (keys_append_key_nodup hAD1n (by
        intro d hd
        rcases List.mem_append.1 hd with hd' | hd'
        · exact ne_of_gt (hAmem d hd')
        · exact (hD1mem d hd').2))]
    rw [orderedInsert_append_left (fun a ha => not_le.2 (hAmem a ha))]
    rw [orderedInsert_below (fun c hc => (hD1mem c hc).1)]
    rw [List.take_of_length_le]
    rw [List.length_append, List.length_cons]
    omega

end DividendHistoryManager

namespace DividendHistoryManager

theorem dropWhile_decomp_of_mem (divs : List DividendRecord) (k : String)
    (hs : divs.Sorted divLE) (hn : (divs.map fun d => d.ex_date).Nodup)
    (hmem : k ∈ divs.map fun d => d.ex_date) :
    ∃ d₀, divs.dropWhile (fun d => decide (k < d.ex_date)) =
        d₀ :: belowKey k divs ∧ d₀.ex_date = k := by
  have hsplit := List.takeWhile_append_dropWhile
    (fun d => decide (k < d.ex_date)) divs
  have hkDr : k ∈ (divs.dropWhile fun d => decide (k < d.ex_date)).map
      fun d => d.ex_date := by
    have : k ∈ ((divs.takeWhile fun d => decide (k < d.ex_date)) ++
        (divs.dropWhile fun d => decide (k < d.ex_date))).map
          fun d => d.ex_date := by rw [hsplit]; exact hmem
    rw [List.map_append, List.mem_append] at this
    rcases this with h | h
    · exfalso
      simp only [List.mem_map] at h
      obtain ⟨d, hd, rfl⟩ := h
      exact absurd rfl (ne_of_gt (aboveKey_mem d hd))
    · exact h
  have hDrs : (divs.dropWhile fun d => decide (k < d.ex_date)).Sorted divLE :=
    hs.sublist (List.dropWhile_sublist _)
  have hDrn : ((divs.dropWhile fun d => decide (k < d.ex_date)).map
      fun d => d.ex_date).Nodup :=
    hn.sublist ((List.dropWhile_sublist _).map _)
  cases hDr : divs.dropWhile (fun d => decide (k < d.ex_date)) with
  | nil => rw [hDr] at hkDr; exact absurd hkDr (by simp)
  | cons d₀ Dr =>
    rw [hDr] at hkDr hDrs hDrn
    have hd₀le : d₀.ex_date ≤ k := by
      have := List.head?_dropWhile_not (fun d => decide (k < d.ex_date)) divs
      rw [hDr] at this
      simp only [List.head?_cons] at this
      simpa using this
    have hd₀k : d₀.ex_date = k := by
      rcases eq_or_lt_of_le hd₀le with h | h
      · exact h
      · exfalso
        rcases List.mem_map.1 hkDr with ⟨d, hd, rfl⟩
        rcases List.mem_cons.1 hd with rfl | hd'
        · exact absurd h (lt_irrefl _)
        · have : d.ex_date ≤ d₀.ex_date :=
            List.rel_of_sorted_cons hDrs d hd'
          exact absurd (lt_of_le_of_lt this h) (lt_irrefl _)
    refine ⟨d₀, ?_, hd₀k⟩
    have hDfilter : belowKey k divs = Dr := by
      unfold belowKey
      rw [hDr]
      rw [List.filter_cons_of_neg (by simpa using hd₀k)]
      rw [List.filter_eq_self]
      intro d hd
      simp only [List.map_cons, List.nodup_cons, List.mem_map] at hDrn
      have : d.ex_date ≠ d₀.ex_date := by
        intro hcontra
        exact hDrn.1 ⟨d, hd, hcontra⟩
      simpa [hd₀k] using (hd₀k ▸ this : d.ex_date ≠ k)
    rw [hDfilter]

theorem upsert_replaces (divs : List DividendRecord) (r : DividendRecord)
    (hv : SeriesValid divs)
    (hmem : r.ex_date ∈ divs.map fun d => d.ex_date) :
    (upsertSeries divs r).length = divs.length
    ∧ r ∈ upsertSeries divs r
    ∧ ∀ d ∈ upsertSeries divs r, d.ex_date = r.ex_date → d = r := by
  obtain ⟨hs, hn, hl⟩ := hv
  obtain ⟨d₀, hDr, hd₀k⟩ := dropWhile_decomp_of_mem divs r.ex_date hs hn hmem
  have hlen : (aboveKey r.ex_date divs).length +
      (belowKey r.ex_date divs).length + 1 = divs.length := by
    have hsplit := congrArg List.length (List.takeWhile_append_dropWhile
      (fun d => decide (r.ex_date < d.ex_date)) divs)
    rw [List.length_append, hDr, List.length_cons] at hsplit
    unfold aboveKey
    omega
  have hfull : (aboveKey r.ex_date divs ++ r :: belowKey r.ex_date divs).length =
      divs.length := by
    rw [List.length_append, List.length_cons]
    omega
  have hdec := upsert_decomp divs r hs hn
  rw [List.take_of_length_le (by rw [hfull]; exact hl)] at hdec
  refine ⟨by rw [hdec, hfull], by rw [hdec]; simp, ?_⟩
  intro d hd hdk
  rw [hdec] at hd
  rcases List.mem_append.1 hd with hd' | hd'
  · exact absurd hdk (ne_of_gt (aboveKey_mem d hd'))
  · rcases List.mem_cons.1 hd' with rfl | hd''
    · rfl
    · exact absurd hdk (belowKey_mem hs d hd'').2

theorem upsert_absorb (divs : List DividendRecord) (r₁ r₂ : DividendRecord)
    (hv : SeriesValid divs) (hk : r₁.ex_date = r₂.ex_date) :
    upsertSeries (upsertSeries divs r₁) r₂ = upsertSeries divs r₂ := by
  obtain ⟨hs, hn, hl⟩ := hv
  have hAD : aboveKey r₂.ex_date divs ++ belowKey r₂.ex_date divs =
      divs.filter fun d => d.ex_date ≠ r₂.ex_date :=
    (filter_ne_key_eq _ _).symm
  have hADs : (aboveKey r₂.ex_date divs ++ belowKey r₂.ex_date divs).Sorted
      divLE := by rw [hAD]; exact hs.filter _
  have hADn : ((aboveKey r₂.ex_date divs ++ belowKey r₂.ex_date divs).map
      fun d => d.ex_date).Nodup := by
    rw [hAD]
    exact hn.sublist ((List.filter_sublist _).map _)
  have hlen : (aboveKey r₂.ex_date divs).length +
      (belowKey r₂.ex_date divs).length ≤ 52 := by
    have := congrArg List.length hAD
    rw [List.length_append] at this
    have hfl := (List.filter_sublist
      (p := fun d => decide (d.ex_date ≠ r₂.ex_date)) divs).length_le
    omega
  rw [upsert_decomp divs r₁ hs hn, hk, upsert_decomp divs r₂ hs hn]
  exact take_upsert_core _ _ r₂ (fun a ha => aboveKey_mem a ha)
    (fun d hd => belowKey_mem hs d hd) hADs hADn hlen r₁ hk

theorem upsert_obs_congr (divs : List DividendRecord) (r₁ r₂ : DividendRecord)
    (hv : SeriesValid divs) (ho : obs r₁ = obs r₂) :
    (upsertSeries divs r₁).map obs = (upsertSeries divs r₂).map obs := by
  have hk : r₁.ex_date = r₂.ex_date := congrArg (fun p => p.2.1) ho
  rw [upsert_decomp divs r₁ hv.1 hv.2.1, upsert_decomp divs r₂ hv.1 hv.2.1, hk]
  rw [List.map_take, List.map_take]
  congr 1
  rw [List.map_append, List.map_append, List.map_cons, List.map_cons, ho]

end DividendHistoryManager

namespace DividendHistoryManager

theorem lookup_map_update (l : List (String × EtfEntry)) (t : String)
    (g : EtfEntry → EtfEntry) :
    List.lookup t (l.map fun p => if p.1 = t then (p.1, g p.2) else p) =
      (List.lookup t l).map g := by
  induction l with
  | nil => rfl
  | cons p l ih =>
    obtain ⟨u, v⟩ := p
    simp only [List.map_cons]
    by_cases hp : u = t
    · subst hp
      simp [List.lookup_cons_self]
    · have hbeq : (t == u) = false := beq_eq_false_iff_ne.2 (Ne.symm hp)
      simp only [if_neg hp, List.lookup_cons, hbeq]
      exact ih

theorem lookup_map_of_ne (l : List (String × EtfEntry))
    (f : String × EtfEntry → String × EtfEntry) (t t' : String) (hne : t' ≠ t)
    (hkey : ∀ p, (f p).1 = p.1) (hfix : ∀ p, p.1 ≠ t → f p = p) :
    List.lookup t' (l.map f) = List.lookup t' l := by
  induction l with
  | nil => rfl
  | cons p l ih =>
    obtain ⟨pu, pv⟩ := p
    by_cases hp : pu = t
    · rcases hfp : f (pu, pv) with ⟨u, v⟩
      have hkeyp : u = pu := by
        have h := hkey (pu, pv)
        rw [hfp] at h
        exact h
      have hbeq : (t' == pu) = false :=
        beq_eq_false_iff_ne.2 (fun hcontra => hne (by rw [hcontra, hp]))
      simp only [List.map_cons, hfp, hkeyp, List.lookup_cons, hbeq]
      exact ih
    · have hfp : f (pu, pv) = (pu, pv) := hfix _ hp
      simp only [List.map_cons, hfp, List.lookup_cons]
      cases hbeq : t' == pu with
      | true => simp only [hbeq]
      | false => simp only [hbeq]; exact ih

theorem lookup_append_single (l : List (String × EtfEntry)) (t : String)
    (e : EtfEntry) (h : List.lookup t l = none) :
    List.lookup t (l ++ [(t, e)]) = some e := by
  rw [List.lookup_append, h, Option.none_or, List.lookup_cons_self]

theorem lookup_append_single_ne (l : List (String × EtfEntry)) (t t' : String)
    (e : EtfEntry) (hne : t' ≠ t) :
    List.lookup t' (l ++ [(t, e)]) = List.lookup t' l := by
  have hbeq : (t' == t) = false := beq_eq_false_iff_ne.2 hne
  rw [List.lookup_append]
  have hsingle : List.lookup t' [(t, e)] = none := by
    simp [List.lookup_cons, hbeq]
  rw [hsingle, Option.or_none]

theorem getSeries_add (db : HistoryDB) (t : String) (amt : AmountIn)
    (ex pay scr now : String) :
    getSeries (add_dividend_record db t amt ex pay scr now).1 t =
      upsertSeries (getSeries db t) (mkRecord amt ex pay scr now) := by
  unfold add_dividend_record getSeries
  cases hlk : db.etfs.lookup t with
  | some e =>
    simp only [hlk, Option.isSome_some, if_true, Option.getD_some]
    rw [lookup_map_update db.etfs t
      (fun x => EtfEntry.mk x.name x.frequency
        (upsertSeries e.dividends (mkRecord amt ex pay scr now))), hlk]
    rfl
  | none =>
    simp only [hlk, Option.isSome_none, Bool.false_eq_true, if_false,
      Option.getD_some]
    rw [lookup_append_single db.etfs t freshEntry hlk]
    simp only [Option.getD_some]
    rw [lookup_map_update (db.etfs ++ [(t, freshEntry)]) t
      (fun x => EtfEntry.mk x.name x.frequency
        (upsertSeries freshEntry.dividends (mkRecord amt ex pay scr now))),
      lookup_append_single db.etfs t freshEntry hlk]
    rfl

theorem lookup_add_ne (db : HistoryDB) (t : String) (amt : AmountIn)
    (ex pay scr now : String) (t' : String) (hne : t' ≠ t) :
    (add_dividend_record db t amt ex pay scr now).1.etfs.lookup t' =
      db.etfs.lookup t' := by
  unfold add_dividend_record
  by_cases hlk : (db.etfs.lookup t).isSome
  · simp only [hlk, if_true]
    exact lookup_map_of_ne _ _ t t' hne
      (fun p => by by_cases h : p.1 = t <;> simp [h])
      (fun p hp => if_neg hp)
  · simp only [hlk, Bool.false_eq_true, if_false]
    rw [lookup_map_of_ne _ _ t t' hne
      (fun p => by by_cases h : p.1 = t <;> simp [h])
      (fun p hp => if_neg hp)]
    exact lookup_append_single_ne db.etfs t t' freshEntry hne

theorem lookup_add_eq (db : HistoryDB) (t : String) (amt : AmountIn)
    (ex pay scr now : String) (e : EtfEntry)
    (he : db.etfs.lookup t = some e) :
    (add_dividend_record db t amt ex pay scr now).1.etfs.lookup t =
      some (EtfEntry.mk e.name e.frequency
        (upsertSeries e.dividends (mkRecord amt ex pay scr now))) := by
  unfold add_dividend_record
  simp only [he, Option.isSome_some, if_true, Option.getD_some]
  rw [lookup_map_update db.etfs t
    (fun x => EtfEntry.mk x.name x.frequency
      (upsertSeries e.dividends (mkRecord amt ex pay scr now))), he]
  rfl

end DividendHistoryManager

namespace DividendHistoryManager

theorem add_preserves_DBInv (db : HistoryDB) (t : String) (amt : AmountIn)
    (ex pay scr now : String) (h : DBInv db) :
    DBInv (add_dividend_record db t amt ex pay scr now).1 := by
  intro p hp
  unfold add_dividend_record at hp
  simp only [List.mem_map] at hp
  obtain ⟨q, hq, hfq⟩ := hp
  have hqOK : SeriesOK q.2.dividends := by
    by_cases hlk : (db.etfs.lookup t).isSome
    · rw [if_pos hlk] at hq
      exact h q hq
    · rw [if_neg hlk] at hq
      rcases List.mem_append.1 hq with hq' | hq'
      · exact h q hq'
      · have hqf : q = (t, freshEntry) := by simpa using hq'
        rw [hqf]
        exact ⟨List.sorted_nil, by simp [freshEntry]⟩
  by_cases hqt : q.1 = t
  · rw [if_pos hqt] at hfq
    rw [← hfq]
    exact ⟨upsert_sorted _ _, upsert_length_le _ _⟩
  · rw [if_neg hqt] at hfq
    rw [← hfq]
    exact hqOK

/-- C2: starting from any database whose series all satisfy the store
shape (sorted by ex-date descending, at most 52 records), every
sequence of `add_dividend_record` calls preserves that shape for every
ticker — each write re-sorts the touched series and truncates it to
52, and leaves all other series untouched. -/
theorem C2_sorted_capped (db : HistoryDB) (hdb : DBInv db)
    (cs : List UpsertCall) : DBInv (applyCalls db cs) := by
  induction cs generalizing db with
  | nil => exact hdb
  | cons c cs ih =>
    exact ih _ (add_preserves_DBInv db c.ticker c.amount c.ex_date c.pay_date
      c.scraped_at c.now hdb)

/-- C2 witness: the invariant holds after two concrete upserts into an
initially empty database. -/
theorem C2_sorted_capped_witness :
    DBInv (applyCalls ⟨"2024-01-01", []⟩
      [⟨"YBTC", .str "$0.25", "2024-01-05", "2024-01-08", "s", "t1"⟩,
       ⟨"YBTC", .str "$0.30", "2024-01-12", "2024-01-15", "s", "t2"⟩]) :=
  C2_sorted_capped ⟨"2024-01-01", []⟩
    (fun p hp => absurd hp (List.not_mem_nil p)) _

end DividendHistoryManager

namespace DividendHistoryManager

/-- C1: on a valid store state (series sorted, ex-dates unique, at
most 52 records), upserting a record whose ex-date is already present
replaces the matching record instead of duplicating it — the series
length is unchanged and the record stored under that ex-date carries
the amount and pay date of the latest write — and upserting the same
(ticker, ex-date, amount, pay-date) twice yields a series whose
observable content (amount, ex-date, pay date per record) is identical
to upserting it once. -/
theorem C1_upsert_replace (db : HistoryDB) (t : String) (amt : AmountIn)
    (ex pay scr now : String) (hv : SeriesValid (getSeries db t)) :
    (ex ∈ (getSeries db t).map (fun d => d.ex_date) →
      ((getSeries (add_dividend_record db t amt ex pay scr now).1 t).length =
          (getSeries db t).length
        ∧ ∀ d ∈ getSeries (add_dividend_record db t amt ex pay scr now).1 t,
            d.ex_date = ex → d.amount = parseAmount amt ∧ d.pay_date = pay))
    ∧ ∀ scr2 now2,
        ((getSeries (add_dividend_record
            (add_dividend_record db t amt ex pay scr now).1 t
            amt ex pay scr2 now2).1 t).map obs) =
        ((getSeries (add_dividend_record db t amt ex pay scr now).1 t).map obs) := by
  constructor
  · intro hmem
    rw [getSeries_add]
    have hrep := upsert_replaces (getSeries db t)
      (mkRecord amt ex pay scr now) hv hmem
    refine ⟨hrep.1, ?_⟩
    intro d hd hdk
    have hd' := hrep.2.2 d hd hdk
    rw [hd']
    exact ⟨rfl, rfl⟩
  · intro scr2 now2
    rw [getSeries_add, getSeries_add]
    rw [upsert_absorb (getSeries db t) (mkRecord amt ex pay scr now)
      (mkRecord amt ex pay scr2 now2) hv rfl]
    exact (upsert_obs_congr (getSeries db t) (mkRecord amt ex pay scr now)
      (mkRecord amt ex pay scr2 now2) hv rfl).symm

def C1db : HistoryDB :=
  ⟨"t0", [("YBTC", ⟨"Roundhill", "Weekly",
    [⟨0, "N/A", "2024-01-05", "2024-01-08", "s", "r"⟩]⟩)]⟩

theorem C1db_valid : SeriesValid (getSeries C1db "YBTC") := by
  refine ⟨?_, ?_, ?_⟩ <;> simp [C1db, getSeries]

/-- C1 witness: the claim's conclusions on a concrete one-ticker
database whose single ex-date is upserted again, twice. -/
theorem C1_upsert_replace_witness :
    ((getSeries (add_dividend_record C1db "YBTC" (.str "$0.25") "2024-01-05"
        "2024-01-12" "s2" "r2").1 "YBTC").length =
      (getSeries C1db "YBTC").length
      ∧ ∀ d ∈ getSeries (add_dividend_record C1db "YBTC" (.str "$0.25")
          "2024-01-05" "2024-01-12" "s2" "r2").1 "YBTC",
          d.ex_date = "2024-01-05" →
            d.amount = parseAmount (.str "$0.25") ∧ d.pay_date = "2024-01-12")
    ∧ ((getSeries (add_dividend_record
          (add_dividend_record C1db "YBTC" (.str "$0.25") "2024-01-05"
            "2024-01-12" "s2" "r2").1
          "YBTC" (.str "$0.25") "2024-01-05" "2024-01-12" "s3" "r3").1
          "YBTC").map obs) =
      ((getSeries (add_dividend_record C1db "YBTC" (.str "$0.25") "2024-01-05"
          "2024-01-12" "s2" "r2").1 "YBTC").map obs) :=
  ⟨(C1_upsert_replace C1db "YBTC" (.str "$0.25") "2024-01-05" "2024-01-12"
      "s2" "r2" C1db_valid).1 (by simp [C1db, getSeries]),
   (C1_upsert_replace C1db "YBTC" (.str "$0.25") "2024-01-05" "2024-01-12"
      "s2" "r2" C1db_valid).2 "s3" "r3"⟩

end DividendHistoryManager

namespace DividendHistoryManager

/-- C10: an `add_dividend_record` call leaves every other ticker's
stored entry unchanged; if the target ticker already existed, its
entry keeps its name and frequency and only its dividends list is
rewritten; and the database's top-level last-updated stamp is set to
the write time. -/
theorem C10_frame (db : HistoryDB) (t : String) (amt : AmountIn)
    (ex pay scr now : String) :
    (∀ t', t' ≠ t →
      (add_dividend_record db t amt ex pay scr now).1.etfs.lookup t' =
        db.etfs.lookup t')
    ∧ (∀ e, db.etfs.lookup t = some e →
        (add_dividend_record db t amt ex pay scr now).1.etfs.lookup t =
          some (EtfEntry.mk e.name e.frequency
            (upsertSeries e.dividends (mkRecord amt ex pay scr now))))
    ∧ (add_dividend_record db t amt ex pay scr now).1.last_updated = now := by
  refine ⟨fun t' hne => lookup_add_ne db t amt ex pay scr now t' hne,
    fun e he => lookup_add_eq db t amt ex pay scr now e he, ?_⟩
  unfold add_dividend_record
  rfl

def C10db : HistoryDB :=
  ⟨"t0",
   [("YBTC", ⟨"Roundhill", "Weekly",
     [⟨0, "N/A", "2024-01-05", "2024-01-08", "s", "r"⟩]⟩),
    ("QQQI", ⟨"Neos", "Monthly",
     [⟨0, "N/A", "2024-01-03", "2024-01-06", "s", "r"⟩]⟩)]⟩

/-- C10 witness: the frame conditions on a concrete two-ticker
database. -/
theorem C10_frame_witness :
    (add_dividend_record C10db "YBTC" (.str "$0.25") "2024-01-12" "2024-01-15"
        "s2" "r2").1.etfs.lookup "QQQI" = C10db.etfs.lookup "QQQI"
    ∧ (add_dividend_record C10db "YBTC" (.str "$0.25") "2024-01-12" "2024-01-15"
        "s2" "r2").1.etfs.lookup "YBTC" =
      some (EtfEntry.mk "Roundhill" "Weekly"
        (upsertSeries [⟨0, "N/A", "2024-01-05", "2024-01-08", "s", "r"⟩]
          (mkRecord (.str "$0.25") "2024-01-12" "2024-01-15" "s2" "r2")))
    ∧ (add_dividend_record C10db "YBTC" (.str "$0.25") "2024-01-12" "2024-01-15"
        "s2" "r2").1.last_updated = "r2" :=
  ⟨(C10_frame C10db "YBTC" (.str "$0.25") "2024-01-12" "2024-01-15"
      "s2" "r2").1 "QQQI" (by decide),
   (C10_frame C10db "YBTC" (.str "$0.25") "2024-01-12" "2024-01-15"
      "s2" "r2").2.1 ⟨"Roundhill", "Weekly",
        [⟨0, "N/A", "2024-01-05", "2024-01-08", "s", "r"⟩]⟩ (by
      simp [C10db]),
   (C10_frame C10db "YBTC" (.str "$0.25") "2024-01-12" "2024-01-15"
      "s2" "r2").2.2⟩

end DividendHistoryManager

namespace DividendHistoryManager

theorem sortDesc_map_strip (l : List DividendRecord) :
    (sortDesc l).map stripRecDisplay = sortDesc (l.map stripRecDisplay) :=
  List.map_insertionSort divLE divLE stripRecDisplay l
    (fun _ _ _ _ => Iff.rfl)

theorem upsert_strip_congr (divs : List DividendRecord)
    (r₁ r₂ : DividendRecord) (h : stripRecDisplay r₁ = stripRecDisplay r₂) :
    (upsertSeries divs r₁).map stripRecDisplay =
      (upsertSeries divs r₂).map stripRecDisplay := by
  have hk : r₁.ex_date = r₂.ex_date := by
    have := congrArg (fun d => d.ex_date) h
    simpa [stripRecDisplay] using this
  unfold upsertSeries
  rw [List.map_take, List.map_take]
  congr 1
  rw [sortDesc_map_strip, sortDesc_map_strip]
  congr 1
  rw [List.map_append, List.map_append, hk]
  congr 1
  simp only [List.map_cons, List.map_nil, h]

/-- C8: an amount string that does not parse as a number (after
stripping the currency prefix) is coerced to amount zero, and the
upsert completes normally — the resulting database and returned length
are exactly those of upserting an amount of zero, up to the stored
display string, which keeps the raw input text. -/
theorem C8_malformed_amount (db : HistoryDB) (t : String) (s : String)
    (ex pay scr now : String)
    (h : pyFloat (stripAmountText s) = none) :
    parseAmount (.str s) = 0
    ∧ stripDisplay (add_dividend_record db t (.str s) ex pay scr now).1 =
        stripDisplay (add_dividend_record db t (.num 0) ex pay scr now).1
    ∧ (add_dividend_record db t (.str s) ex pay scr now).2 =
        (add_dividend_record db t (.num 0) ex pay scr now).2 := by
  have hp0 : parseAmount (.str s) = 0 := by
    show (pyFloat (stripAmountText s)).getD 0 = 0
    rw [h]
    rfl
  have hstrip : stripRecDisplay (mkRecord (.str s) ex pay scr now) =
      stripRecDisplay (mkRecord (.num 0) ex pay scr now) := by
    unfold stripRecDisplay mkRecord
    simp only [hp0]
    rfl
  refine ⟨hp0, ?_, ?_⟩
  · unfold stripDisplay add_dividend_record
    simp only [List.map_map]
    congr 1
    apply List.map_congr_left
    intro p hp
    simp only [Function.comp_apply]
    by_cases hpt : p.1 = t
    · simp only [if_pos hpt]
      exact congrArg (fun d => (p.1, EtfEntry.mk p.2.name p.2.frequency d))
        (upsert_strip_congr _ _ _ hstrip)
    · simp only [if_neg hpt]
  · unfold add_dividend_record
    simp only
    have := congrArg List.length (upsert_strip_congr
      ((((if (db.etfs.lookup t).isSome then db.etfs
          else db.etfs ++ [(t, freshEntry)]).lookup t).getD
        freshEntry).dividends)
      (mkRecord (.str s) ex pay scr now) (mkRecord (.num 0) ex pay scr now)
      hstrip)
    simpa using this

end DividendHistoryManager

namespace DividendHistoryManager

/-- C8 witness: the claim's conclusion for the unparsable amount
string "N/A" against an empty database. -/
theorem C8_malformed_amount_witness :
    parseAmount (.str "N/A") = 0
    ∧ stripDisplay (add_dividend_record ⟨"t0", []⟩ "WPAY" (.str "N/A")
        "2024-01-05" "2024-01-08" "s" "r").1 =
      stripDisplay (add_dividend_record ⟨"t0", []⟩ "WPAY" (.num 0)
        "2024-01-05" "2024-01-08" "s" "r").1
    ∧ (add_dividend_record ⟨"t0", []⟩ "WPAY" (.str "N/A")
        "2024-01-05" "2024-01-08" "s" "r").2 =
      (add_dividend_record ⟨"t0", []⟩ "WPAY" (.num 0)
        "2024-01-05" "2024-01-08" "s" "r").2 :=
  C8_malformed_amount ⟨"t0", []⟩ "WPAY" "N/A" "2024-01-05" "2024-01-08" "s" "r"
    rfl

end DividendHistoryManager
